import Mathlib

set_option maxRecDepth 16000

/-!
Verification development for the Portfolio_Analyzer repository.

The Python sources are shallowly embedded in Lean.  Real-number arithmetic
is modelled with exact rationals `ℚ`; the square root (`numpy.sqrt`), whose
result is irrational in general, enters the pipeline as an explicit function
parameter `sq : ℚ → ℚ`.  IEEE special values (`inf`, `nan`), which matter
where the Python code divides by zero on floats, are modelled by the
`PyVal` typerather than by the total division of `ℚ`.  Missing data
(`NaN` entries dropped by `dropna`/skipped by `mean`/`std`) is modelled by
`Option`.
-/

namespace PortfolioAnalyzer

/-- Arithmetic mean of a series (`Series.mean()`), in exact rationals.
An empty series gives `0` (ℚ division by zero), a case never reached on the
guarded code paths. -/
def mean (xs : List ℚ) : ℚ := xs.sum / xs.length

/-- Sample variance (square of `Series.std()`, pandas default `ddof = 1`). -/
def sampleVar (xs : List ℚ) : ℚ :=
  (xs.map (fun x => (x - mean xs) ^ 2)).sum / ((xs.length : ℚ) - 1)

/-- `Series.pct_change()` on a series with no missing entries, followed by
dropping the leading missing value (analysis.py line 67 applies `.dropna()`;
app.py's `mean`/`std` skip it):  consecutive simple returns
`price[i]/price[i-1] - 1`. -/
def pctChange : List ℚ → List ℚ
  | [] => []
  | [_] => []
  | p :: q :: rest => (q / p - 1) :: pctChange (q :: rest)

/-- Result of a Python float computation: a finite value or an IEEE special
value. -/
inductive PyVal where
  | fin : ℚ → PyVal
  | posInf : PyVal
  | negInf : PyVal
  | nan : PyVal
deriving DecidableEq

/-- IEEE-754 division of a finite float `a` by a finite float `b` (with
`b = +0.0` when zero), as numpy performs it: a warning, not an exception. -/
def pyDivF (a b : ℚ) : PyVal :=
  if b ≠ 0 then .fin (a / b)
  else if 0 < a then .posInf
  else if a < 0 then .negInf
  else .nan

/-- Risk-free rate used by analysis.py (`rf_rate = 0.0426`, line 85). -/
def RF_IND : ℚ := 426 / 10000

/-- Risk-free rate used by app.py (`RISK_FREE_RATE = 0.04`, line 9). -/
def RF_APP : ℚ := 4 / 100

/-- The guarded Sharpe step of analysis.py lines 87-90, value level:
`if annualized_vol > 0: sharpe = (annualized_return - rf_rate) / annualized_vol
else: sharpe = 0.0`. -/
def sharpeQ (annualizedReturn annualizedVol : ℚ) : ℚ :=
  if 0 < annualizedVol then (annualizedReturn - RF_IND) / annualizedVol else 0

/-- The guarded Sharpe step of analysis.py lines 87-90 at the float level,
keeping IEEE special values representable. -/
def sharpe_step (annualizedReturn annualizedVol : ℚ) : PyVal :=
  if 0 < annualizedVol then pyDivF (annualizedReturn - RF_IND) annualizedVol
  else .fin 0

/-- The unguarded Sharpe computation of app.py line 45:
`sharpe = (annual_ret - RISK_FREE_RATE) / volatility` with no zero check. -/
def get_sharpe_step (annualRet volatility : ℚ) : PyVal :=
  pyDivF (annualRet - RF_APP) volatility

/-- The metric part of `get_sharpe` (app.py lines 42-45) on a close-price
series: returns via `pct_change`, annualization by 252, volatility
`std * sqrt(252)` (the square root supplied as `sq`). -/
def get_sharpe_metrics (sq : ℚ → ℚ) (closes : List ℚ) : PyVal :=
  let rets := pctChange closes
  get_sharpe_step (mean rets * 252) (sq (sampleVar rets) * sq 252)

/-- A stand-in for the real square root in closed statements: any function
with `sq 0 = 0` and `sq q > 0` for `q > 0` exercises the code paths under
scrutiny, since only the sign of the volatility is ever branched on. -/
def sq0 (q : ℚ) : ℚ := if q ≤ 0 then 0 else 1

/-- Running maximum, tail worker: accumulator `m` is the maximum so far. -/
def cummaxAux (m : ℚ) : List ℚ → List ℚ
  | [] => []
  | p :: rest => max m p :: cummaxAux (max m p) rest

/-- `Series.cummax()` (analysis.py line 94). -/
def cummax : List ℚ → List ℚ
  | [] => []
  | p :: rest => p :: cummaxAux p rest

/-- Per-date drawdowns `(hist - rolling_max) / rolling_max`
(analysis.py line 95). -/
def drawdowns (hist : List ℚ) : List ℚ :=
  List.zipWith (fun p m => (p - m) / m) hist (cummax hist)

/-- `Series.min()` of a non-empty series; `0` on the unreachable empty
series. -/
def listMin : List ℚ → ℚ
  | [] => 0
  | x :: rest => rest.foldl min x

/-- `drawdown.min()` (analysis.py line 96). -/
def max_drawdown (hist : List ℚ) : ℚ := listMin (drawdowns hist)

/-- `resample('ME').last().dropna()` (analysis.py line 63) on a
chronologically ordered series keyed by month index: keep the last entry of
each run of equal month keys. -/
def monthLast : List (Nat × ℚ) → List (Nat × ℚ)
  | [] => []
  | [x] => [x]
  | x :: y :: rest =>
    if x.1 = y.1 then monthLast (y :: rest) else x :: monthLast (y :: rest)

/-- Raw daily series for one ticker as delivered by the price-history
provider: (month index, close price or missing) in chronological order. -/
abbrev RawSeries := List (Nat × Option ℚ)

/-- `hist.dropna()` (analysis.py line 52): drop entries with missing
prices. -/
def dropnaRaw (raw : RawSeries) : List (Nat × ℚ) :=
  raw.filterMap (fun e => e.2.map (fun p => (e.1, p)))

/-- The numeric fields of one row produced by analysis.py lines 99-105. -/
structure Metrics where
  sharpe : ℚ
  volatility : ℚ
  cagr : ℚ
  max_drawdown : ℚ
deriving DecidableEq

/-- The body of the per-ticker `try` block of `calculate_risk_metrics`
(analysis.py lines 42-105): `none` models an exception (missing data,
insufficient history), `some` a computed record.  `sq` is `numpy.sqrt`,
`fetch` the downloaded per-ticker close series (`none` models a ticker
absent from the download result). -/
def tickerMetrics (sq : ℚ → ℚ) (fetch : String → Option RawSeries)
    (t : String) : Option Metrics :=
  match fetch t with
  | none => none
  | some raw =>
    let hist := dropnaRaw raw
    if hist.length < 500 then none
    else
      let histMonthly := (monthLast hist).map (fun e => e.2)
      let monthlyRets := pctChange histMonthly
      if monthlyRets.length < 24 then none
      else
        let annualizedReturn := mean monthlyRets * 12
        let annualizedVol := sq (sampleVar monthlyRets) * sq 12
        some { sharpe := sharpeQ annualizedReturn annualizedVol
               volatility := annualizedVol
               cagr := annualizedReturn
               max_drawdown := max_drawdown (hist.map (fun e => e.2)) }

/-- One output row of `calculate_risk_metrics` (analysis.py lines 99-112). -/
structure MetricRecord where
  ticker : String
  sharpe : ℚ
  volatility : ℚ
  cagr : ℚ
  max_drawdown : ℚ
deriving DecidableEq

/-- The fallback record of analysis.py lines 109-112. -/
def zeroRecord (t : String) : MetricRecord :=
  { ticker := t, sharpe := 0, volatility := 0, cagr := 0, max_drawdown := 0 }

/-- One iteration of the ticker loop of `calculate_risk_metrics`
(analysis.py lines 41-112): a successful `try` body appends the computed
record, any exception appends the zero-valued fallback. -/
def recordFor (sq : ℚ → ℚ) (fetch : String → Option RawSeries)
    (t : String) : MetricRecord :=
  match tickerMetrics sq fetch t with
  | some m =>
    { ticker := t, sharpe := m.sharpe, volatility := m.volatility,
      cagr := m.cagr, max_drawdown := m.max_drawdown }
  | none => zeroRecord t

/-- `calculate_risk_metrics` (analysis.py lines 5-114) after a successful
batch download, as a function of the per-ticker downloaded data. -/
def calculate_risk_metrics (sq : ℚ → ℚ) (fetch : String → Option RawSeries)
    (tickers : List String) : List MetricRecord :=
  tickers.map (recordFor sq fetch)

/-- One raw holding handed to `create_portfolio_df` (processing.py):
`quantity = none` models a non-numeric quantity, which
`pd.to_numeric(..., errors='coerce')` turns into `NaN`. -/
structure Holding where
  ticker : String
  quantity : Option ℚ
deriving DecidableEq

/-- `pd.to_numeric(df['quantity'], errors='coerce').fillna(0.0)`
(processing.py line 38): a non-numeric quantity becomes `0.0`. -/
def normQuantity (h : Holding) : ℚ := h.quantity.getD 0

/-- One row of the portfolio table produced by `create_portfolio_df`. -/
structure PRow where
  ticker : String
  quantity : ℚ
  price : ℚ
  value : ℚ
  weight : ℚ
deriving DecidableEq

/-- The intermediate rows of `create_portfolio_df` (processing.py
lines 34-58): (ticker, quantity, price, value = quantity * price).
`priceOf` is the live-price lookup; a failed per-ticker price fetch is the
price `0.0` (lines 52-55). -/
def rawRows (priceOf : String → ℚ) (holdings : List Holding) :
    List (String × ℚ × ℚ × ℚ) :=
  holdings.map (fun h =>
    (h.ticker, normQuantity h, priceOf h.ticker,
      normQuantity h * priceOf h.ticker))

/-- `df = df[df['value'] > 0]` (processing.py line 61). -/
def keptRows (priceOf : String → ℚ) (holdings : List Holding) :
    List (String × ℚ × ℚ × ℚ) :=
  (rawRows priceOf holdings).filter (fun r => decide (0 < r.2.2.2))

/-- `total_value = df['value'].sum()` over the filtered table
(processing.py line 62). -/
def totalValue (priceOf : String → ℚ) (holdings : List Holding) : ℚ :=
  ((keptRows priceOf holdings).map (fun r => r.2.2.2)).sum

/-- `create_portfolio_df` (processing.py lines 29-72), numeric part:
build value rows, filter `value > 0`, then weight by `value / total`
(the scalar `0.0` when the total is not positive, line 63).  The sector
column (lines 65-70) does not affect any claim. -/
def create_portfolio_df (priceOf : String → ℚ) (holdings : List Holding) :
    List PRow :=
  (keptRows priceOf holdings).map (fun r =>
    { ticker := r.1, quantity := r.2.1, price := r.2.2.1, value := r.2.2.2,
      weight := if 0 < totalValue priceOf holdings then
          r.2.2.2 / totalValue priceOf holdings
        else 0 })

/-- Forward fill of one price column (`DataFrame.ffill()`,
analysis.py line 133): a missing entry takes the last seen value, leading
missing entries stay missing. -/
def ffill (last : Option ℚ) : List (Option ℚ) → List (Option ℚ)
  | [] => []
  | none :: rest => last :: ffill last rest
  | some p :: rest => some p :: ffill (some p) rest

/-- The downloaded close-price table of `get_portfolio_history`: one column
of length-`n` optional prices per ticker. -/
abbrev PriceTable := List (String × List (Option ℚ))

/-- The table after `ffill()`. -/
def ffilledTable (tbl : PriceTable) : PriceTable :=
  tbl.map (fun c => (c.1, ffill none c.2))

/-- Dates surviving `dropna()` after `ffill()` (analysis.py line 133):
exactly the dates at which every column still has a price. -/
def completeDates (tbl : PriceTable) (n : Nat) : List Nat :=
  (List.range n).filter
    (fun i => (ffilledTable tbl).all (fun c => (c.2.getD i none).isSome))

/-- Forward-filled price of ticker `t` at date `i` (0 when the column or the
entry is absent). -/
def priceAt (tbl : PriceTable) (t : String) (i : Nat) : ℚ :=
  match (ffilledTable tbl).find? (fun c => c.1 == t) with
  | some c => (c.2.getD i none).getD 0
  | none => 0

/-- `dict(zip(df['ticker'], df['quantity'])).get(t, 0)`
(analysis.py lines 124 and 139): on duplicate tickers the last quantity
wins. -/
def qtyOf (positions : List (String × ℚ)) (t : String) : ℚ :=
  ((positions.reverse.find? (fun p => p.1 == t)).map (fun p => p.2)).getD 0

/-- One iteration of the accumulation loop of `get_portfolio_history`
(analysis.py lines 137-139): `if t in data.columns:
portfolio_history += data[t] * quantities.get(t, 0)`. -/
def historyStep (positions : List (String × ℚ)) (tbl : PriceTable)
    (acc : List (Nat × ℚ)) (t : String) : List (Nat × ℚ) :=
  match (ffilledTable tbl).find? (fun c => c.1 == t) with
  | some c => acc.map (fun e =>
      (e.1, e.2 + (c.2.getD e.1 none).getD 0 * qtyOf positions t))
  | none => acc

/-- `get_portfolio_history` (analysis.py lines 116-145) after a successful
download, as a function of the downloaded table `tbl` over `n` dates:
forward fill, drop incomplete dates, then accumulate
`price * quantity` ticker by ticker over a zero-initialised series. -/
def get_portfolio_history (positions : List (String × ℚ))
    (tbl : PriceTable) (n : Nat) : List (Nat × ℚ) :=
  (positions.map (fun p => p.1)).foldl (historyStep positions tbl)
    ((completeDates tbl n).map (fun i => (i, 0)))

/-- One row of the merged portfolio table `final_df` (app_gemini.py
line 52): positions merged with risk metrics by ticker. -/
structure SnapRow where
  ticker : String
  weight : ℚ
  sharpe : ℚ
  cagr : ℚ
  max_drawdown : ℚ
deriving DecidableEq

/-- `(final_df['weight'] * final_df['sharpe']).sum()`
(app_gemini.py line 59; app.py line 99 is the same form with allocation
weights). -/
def weighted_sharpe (rows : List SnapRow) : ℚ :=
  (rows.map (fun r => r.weight * r.sharpe)).sum

/-- `(final_df['weight'] * final_df['cagr']).sum()` (app_gemini.py
line 60). -/
def weighted_cagr (rows : List SnapRow) : ℚ :=
  (rows.map (fun r => r.weight * r.cagr)).sum

/-- `final_df['max_drawdown'].min()` (app_gemini.py line 62). -/
def worst_drawdown (rows : List SnapRow) : ℚ :=
  listMin (rows.map (fun r => r.max_drawdown))

/-- Unweighted average Sharpe over all positions (spec section 4.5). -/
def avgSharpe (rows : List SnapRow) : ℚ := mean (rows.map (fun r => r.sharpe))

/-- Ascending comparison by the sharpe column. -/
def sharpeLE (a b : SnapRow) : Prop := a.sharpe ≤ b.sharpe

/-- Descending comparison by the sharpe column. -/
def sharpeGE (a b : SnapRow) : Prop := b.sharpe ≤ a.sharpe

instance : DecidableRel sharpeLE :=
  fun a b => inferInstanceAs (Decidable (a.sharpe ≤ b.sharpe))

instance : DecidableRel sharpeGE :=
  fun a b => inferInstanceAs (Decidable (b.sharpe ≤ a.sharpe))

instance : IsTotal SnapRow sharpeLE := ⟨fun a b => le_total a.sharpe b.sharpe⟩

instance : IsTotal SnapRow sharpeGE := ⟨fun a b => le_total b.sharpe a.sharpe⟩

instance : IsTrans SnapRow sharpeLE :=
  ⟨fun _ _ _ h1 h2 => le_trans (α := ℚ) h1 h2⟩

instance : IsTrans SnapRow sharpeGE :=
  ⟨fun _ _ _ h1 h2 => le_trans (α := ℚ) h2 h1⟩

/-- Modelled from the spec: `get_optimization_suggestions` is imported from
the `analysis` module by app_gemini.py (lines 11 and 55) but its definition
is not among the provided source files.  Spec section 4.5: trim = positions
with sharpe strictly below the unweighted average and weight strictly above
the minimum-weight threshold, ascending by sharpe; boost = positions with
sharpe strictly above the average, descending by sharpe. -/
def get_optimization_suggestions (rows : List SnapRow) (minWeight : ℚ) :
    List SnapRow × List SnapRow :=
  let avg := avgSharpe rows
  let trim := (rows.filter (fun r =>
    decide (r.sharpe < avg) && decide (minWeight < r.weight))).insertionSort
      sharpeLE
  let boost := (rows.filter (fun r =>
    decide (avg < r.sharpe))).insertionSort sharpeGE
  (trim, boost)

/-- The crypto symbols special-cased by `get_sharpe` (app.py line 36). -/
def cryptoTickers : List String := ["BTC", "ETH", "DOGE", "SOL"]

/-- The ticker adjustment of `get_sharpe` (app.py line 36):
`if ticker in ['BTC', 'ETH', 'DOGE', 'SOL']: ticker = f"{ticker}-USD"`. -/
def adjustTicker (t : String) : String :=
  if t ∈ cryptoTickers then t ++ "-USD" else t

/-- Return-series construction of the core (spec section 4.1, code:
analysis.py lines 52 and 67 with `resample = none`): drop missing entries,
then difference. -/
def buildReturns (prices : List (Option ℚ)) : List ℚ :=
  pctChange (prices.filterMap id)

/-- Stated from the spec's words, for comparison with `buildReturns`:
"Drop missing/non-positive price entries before differencing." -/
def buildReturnsSpec (prices : List (Option ℚ)) : List ℚ :=
  pctChange ((prices.filterMap id).filter (fun p => decide (0 < p)))

/-- Concrete two-position snapshot used to exercise the aggregation
functions: weights 0.6/0.4, Sharpe 1.0/2.0, drawdowns -0.25/0. -/
def demoRows : List SnapRow :=
  [⟨"A", 3/5, 1, 0, -(1/4)⟩, ⟨"B", 2/5, 2, 0, 0⟩]

/-- A 600-point constant daily price series spanning 25 month indices:
long enough to pass both validation thresholds of `tickerMetrics`. -/
def raw600 : RawSeries := (List.range 600).map (fun i => (i / 24, some 1))

/-! ## Helper lemmas -/

theorem recordFor_ticker (sq : ℚ → ℚ) (fetch : String → Option RawSeries)
    (t : String) : (recordFor sq fetch t).ticker = t := by
  unfold recordFor
  cases tickerMetrics sq fetch t <;> rfl

theorem countP_eq_one_of_nodup (l : List String) (t : String) (hnd : l.Nodup)
    (ht : t ∈ l) : l.countP (fun u => decide (u = t)) = 1 := by
  induction l with
  | nil => cases ht
  | cons a rest ih =>
    rw [List.countP_cons]
    rcases List.mem_cons.mp ht with hta | hmem
    · have h0 : rest.countP (fun u => decide (u = t)) = 0 :=
        List.countP_eq_zero.mpr (fun x hx hdx =>
          (List.nodup_cons.mp hnd).1
            (((of_decide_eq_true hdx).trans hta) ▸ hx))
      rw [h0]
      simp [hta]
    · have h1 := ih (List.nodup_cons.mp hnd).2 hmem
      have hne : a ≠ t := fun he => (List.nodup_cons.mp hnd).1 (he ▸ hmem)
      simp [h1, hne]

theorem pctChange_length : ∀ l : List ℚ, (pctChange l).length = l.length - 1
  | [] => rfl
  | [_] => rfl
  | _ :: q :: rest => by
    have ih := pctChange_length (q :: rest)
    simp only [pctChange, List.length_cons] at ih ⊢
    omega

theorem pctChange_getD : ∀ (l : List ℚ) (i : Nat), i + 1 < l.length →
    (pctChange l).getD i 0 = l.getD (i + 1) 0 / l.getD i 0 - 1
  | [], i, h => by simp at h
  | [_], i, h => by simp at h
  | _ :: _ :: _, 0, _ => by simp [pctChange]
  | _ :: q :: rest, (i + 1), h => by
    have ih := pctChange_getD (q :: rest) i (by
      simp only [List.length_cons] at h ⊢
      omega)
    simpa [pctChange, List.getD_cons_succ] using ih

theorem pctChange_eq_nil : ∀ l : List ℚ, l.length < 2 → pctChange l = []
  | [], _ => rfl
  | [_], _ => rfl
  | _ :: _ :: _, h => by simp only [List.length_cons] at h; omega

theorem sum_map_div (l : List ℚ) (c : ℚ) :
    (l.map (fun x => x / c)).sum = l.sum / c := by
  induction l with
  | nil => simp
  | cons a t ih => simp [ih, add_div]

theorem foldlMin_mem (rest : List ℚ) : ∀ a : ℚ, rest.foldl min a ∈ a :: rest := by
  induction rest with
  | nil => intro a; simp
  | cons b t ih =>
    intro a
    rw [List.foldl_cons]
    rcases List.mem_cons.mp (ih (min a b)) with h | h
    · rcases min_choice a b with hc | hc
      · rw [h, hc]; exact List.mem_cons_self _ _
      · rw [h, hc]; exact List.mem_cons_of_mem _ (List.mem_cons_self _ _)
    · exact List.mem_cons_of_mem _ (List.mem_cons_of_mem _ h)

theorem foldlMin_le (rest : List ℚ) :
    ∀ a x : ℚ, x ∈ a :: rest → rest.foldl min a ≤ x := by
  induction rest with
  | nil =>
    intro a x hx
    rcases List.mem_cons.mp hx with hx1 | h
    · rw [hx1]
      exact le_refl a
    · cases h
  | cons b t ih =>
    intro a x hx
    rw [List.foldl_cons]
    rcases List.mem_cons.mp hx with hx1 | hx'
    · rw [hx1]
      exact le_trans (ih (min a b) (min a b) (List.mem_cons_self _ _))
        (min_le_left a b)
    · rcases List.mem_cons.mp hx' with hx2 | hx''
      · rw [hx2]
        exact le_trans (ih (min a b) (min a b) (List.mem_cons_self _ _))
          (min_le_right a b)
      · exact ih (min a b) x (List.mem_cons_of_mem _ hx'')

theorem listMin_mem : ∀ l : List ℚ, l ≠ [] → listMin l ∈ l
  | [], h => absurd rfl h
  | x :: rest, _ => foldlMin_mem rest x

theorem listMin_le (l : List ℚ) : ∀ x ∈ l, listMin l ≤ x := by
  cases l with
  | nil => intro x hx; cases hx
  | cons a rest => intro x hx; exact foldlMin_le rest a x hx

theorem sum_map_eq_finSum (rows : List SnapRow) (f : SnapRow → ℚ) :
    (rows.map f).sum = ∑ i : Fin rows.length, f (rows.get i) := by
  conv_lhs => rw [← List.ofFn_get rows]
  rw [List.map_ofFn, List.sum_ofFn]
  rfl

/-! ## Claims -/

/-- Claim C10: in `get_sharpe`, each of the tickers BTC, ETH, DOGE, SOL is
rewritten to the same symbol with "-USD" appended before the price history
is requested, and every other ticker is passed through unchanged. -/
theorem C10_crypto_rewrite (t : String) :
    (t ∈ cryptoTickers → adjustTicker t = t ++ "-USD")
    ∧ (t ∉ cryptoTickers → adjustTicker t = t) := by
  constructor
  · intro h; simp [adjustTicker, h]
  · intro h; simp [adjustTicker, h]

theorem C10_witness :
    adjustTicker "BTC" = "BTC-USD" ∧ adjustTicker "AAPL" = "AAPL" := by
  constructor
  · rw [(C10_crypto_rewrite "BTC").1 (by decide)]
    decide
  · exact (C10_crypto_rewrite "AAPL").2 (by decide)

/-- Claim C1: `calculate_risk_metrics` contains every per-ticker failure at
the ticker boundary: each failed ticker yields the zero-valued record, the
batch never fails because of one bad ticker (the loop is a total map over
the ticker list), and when the ticker list has no duplicates every input
ticker appears in the output exactly once. -/
theorem C1_batch_containment (sq : ℚ → ℚ)
    (fetch : String → Option RawSeries) (tickers : List String) :
    (calculate_risk_metrics sq fetch tickers).map (fun r => r.ticker) = tickers
    ∧ (∀ t, tickerMetrics sq fetch t = none →
        recordFor sq fetch t = zeroRecord t)
    ∧ (tickers.Nodup → ∀ t ∈ tickers,
        (calculate_risk_metrics sq fetch tickers).countP
          (fun r => decide (r.ticker = t)) = 1) := by
  refine ⟨?_, ?_, ?_⟩
  · unfold calculate_risk_metrics
    rw [List.map_map]
    exact (List.map_congr_left
      (fun a _ => recordFor_ticker sq fetch a)).trans (List.map_id tickers)
  · intro t ht
    unfold recordFor
    rw [ht]
  · intro hnd t htm
    unfold calculate_risk_metrics
    rw [List.countP_map]
    have hfn : ((fun r : MetricRecord => decide (r.ticker = t)) ∘
        recordFor sq fetch) = fun u => decide (u = t) := by
      funext u
      simp [Function.comp, recordFor_ticker]
    rw [hfn]
    exact countP_eq_one_of_nodup tickers t hnd htm

theorem C1_witness :
    (calculate_risk_metrics id (fun _ => none) ["AAPL", "MSFT"]).map
      (fun r => r.ticker) = ["AAPL", "MSFT"]
    ∧ recordFor id (fun _ => none) "AAPL" = zeroRecord "AAPL"
    ∧ (calculate_risk_metrics id (fun _ => none) ["AAPL", "MSFT"]).countP
        (fun r => decide (r.ticker = "AAPL")) = 1 :=
  ⟨(C1_batch_containment id (fun _ => none) ["AAPL", "MSFT"]).1,
    (C1_batch_containment id (fun _ => none) ["AAPL", "MSFT"]).2.1 "AAPL" rfl,
    (C1_batch_containment id (fun _ => none) ["AAPL", "MSFT"]).2.2
      (by decide) "AAPL" (by decide)⟩

/-- Claim C3 (amended): return-series construction drops missing entries
before differencing (it does not drop non-positive prices; on a series
whose present prices are all positive this coincides with the spec's rule),
computes `price[i]/price[i-1] - 1` over consecutive retained entries, and
produces the empty series when fewer than two valid points remain. -/
theorem C3_return_series (prices : List (Option ℚ)) :
    (buildReturns prices).length = (prices.filterMap id).length - 1
    ∧ (∀ i : Nat, i + 1 < (prices.filterMap id).length →
        (buildReturns prices).getD i 0 =
          (prices.filterMap id).getD (i + 1) 0 /
            (prices.filterMap id).getD i 0 - 1)
    ∧ ((prices.filterMap id).length < 2 → buildReturns prices = [])
    ∧ ((∀ p : ℚ, some p ∈ prices → 0 < p) →
        buildReturns prices = buildReturnsSpec prices) := by
  refine ⟨pctChange_length _, fun i h => pctChange_getD _ i h,
    pctChange_eq_nil _, ?_⟩
  intro hpos
  unfold buildReturns buildReturnsSpec
  congr 1
  symm
  apply List.filter_eq_self.mpr
  intro a ha
  rcases List.mem_filterMap.mp ha with ⟨b, hb, hba⟩
  simp only [id] at hba
  subst hba
  exact decide_eq_true (hpos a hb)

theorem C3_witness :
    0 + 1 < (([some 4, some 2] : List (Option ℚ)).filterMap id).length
    ∧ (buildReturns [some 4, some 2]).getD 0 0 =
        (([some 4, some 2] : List (Option ℚ)).filterMap id).getD 1 0 /
          (([some 4, some 2] : List (Option ℚ)).filterMap id).getD 0 0 - 1 :=
  ⟨by decide, (C3_return_series [some 4, some 2]).2.1 0 (by decide)⟩

/-- Claim C3 counterexample: the code retains a non-positive price, so a
return entry with a non-positive endpoint price exists, and the code's
return series differs from the spec's drop-non-positive rule on the
series [100, -50, 100]. -/
theorem C3_counterexample :
    buildReturns [some 100, some (-50), some 100] = [-(3/2), -3]
    ∧ buildReturnsSpec [some 100, some (-50), some 100] = [0]
    ∧ buildReturns [some 100, some (-50), some 100] ≠
        buildReturnsSpec [some 100, some (-50), some 100] := by
  have h1 : buildReturns [some 100, some (-50), some 100] = [-(3/2), -3] := by
    norm_num [buildReturns, pctChange]
  have h2 : buildReturnsSpec [some 100, some (-50), some 100] = [0] := by
    norm_num [buildReturnsSpec, pctChange]
  refine ⟨h1, h2, ?_⟩
  rw [h1, h2]
  intro he
  simpa using congrArg List.length he

/-- Claim C2 (amended): in `calculate_risk_metrics` the Sharpe step is
guarded: it returns 0.0 when the annualized volatility is 0 and always
produces a finite value; `get_sharpe` in app.py has no such guard and its
unguarded division produces -inf when the volatility is 0 and the
annualized return is below the risk-free rate. -/
theorem C2_sharpe_guard (ret vol : ℚ) :
    sharpe_step ret vol = PyVal.fin (sharpeQ ret vol)
    ∧ (vol = 0 → sharpe_step ret vol = PyVal.fin 0)
    ∧ (vol = 0 → ret < RF_APP → get_sharpe_step ret vol = PyVal.negInf) := by
  refine ⟨?_, ?_, ?_⟩
  · unfold sharpe_step sharpeQ pyDivF
    by_cases h : 0 < vol
    · rw [if_pos h, if_pos h, if_pos (ne_of_gt h)]
    · rw [if_neg h, if_neg h]
  · intro h
    subst h
    unfold sharpe_step
    rw [if_neg (lt_irrefl 0)]
  · intro h hlt
    subst h
    unfold get_sharpe_step pyDivF
    rw [if_neg (by simp), if_neg (by linarith), if_pos (by linarith)]

theorem C2_witness :
    (0 : ℚ) < RF_APP
    ∧ sharpe_step 0 0 = PyVal.fin 0
    ∧ get_sharpe_step 0 0 = PyVal.negInf :=
  ⟨by norm_num [RF_APP], (C2_sharpe_guard 0 0).2.1 rfl,
    (C2_sharpe_guard 0 0).2.2 rfl (by norm_num [RF_APP])⟩

/-- Claim C2 counterexample: `get_sharpe` on a constant price series
(volatility 0) produces -inf, not 0.0: the claimed zero-volatility
safeguard is absent from app.py. -/
theorem C2_counterexample :
    get_sharpe_metrics sq0 [1, 1, 1] = PyVal.negInf
    ∧ PyVal.negInf ≠ PyVal.fin 0 := by
  constructor
  · norm_num [get_sharpe_metrics, pctChange, mean, sampleVar, sq0,
      get_sharpe_step, pyDivF, RF_APP]
  · intro h
    cases h

theorem create_values_pos (priceOf : String → ℚ) (holdings : List Holding) :
    ∀ r ∈ create_portfolio_df priceOf holdings, 0 < r.value := by
  intro r hr
  rcases List.mem_map.mp hr with ⟨k, hk, hkr⟩
  have hv := (List.mem_filter.mp hk).2
  rw [← hkr]
  exact of_decide_eq_true hv

/-- Claim C5: positions with non-positive value are excluded before weight
normalization; the retained weights sum to exactly 1 whenever the total
value is positive, and are all 0 when the total value is 0. -/
theorem C5_weight_invariant (priceOf : String → ℚ) (holdings : List Holding) :
    (∀ r ∈ create_portfolio_df priceOf holdings, 0 < r.value)
    ∧ (0 < totalValue priceOf holdings →
        ((create_portfolio_df priceOf holdings).map (fun r => r.weight)).sum
          = 1)
    ∧ (totalValue priceOf holdings = 0 →
        ∀ r ∈ create_portfolio_df priceOf holdings, r.weight = 0) := by
  refine ⟨create_values_pos priceOf holdings, ?_, ?_⟩
  · intro hpos
    unfold create_portfolio_df
    rw [List.map_map]
    have hw : ((fun r : PRow => r.weight) ∘ fun r : String × ℚ × ℚ × ℚ =>
        ({ ticker := r.1, quantity := r.2.1, price := r.2.2.1,
           value := r.2.2.2,
           weight := if 0 < totalValue priceOf holdings then
               r.2.2.2 / totalValue priceOf holdings
             else 0 } : PRow)) =
        ((fun x => x / totalValue priceOf holdings) ∘
          fun r : String × ℚ × ℚ × ℚ => r.2.2.2) := by
      funext k
      simp [Function.comp, if_pos hpos]
    rw [hw, ← List.map_map, sum_map_div]
    exact div_self (ne_of_gt hpos)
  · intro hz r hr
    rcases List.mem_map.mp hr with ⟨k, _, hkr⟩
    rw [← hkr]
    simp [hz]

theorem C5_witness :
    0 < totalValue (fun _ => 10) [{ ticker := "B", quantity := some 1 }]
    ∧ ((create_portfolio_df (fun _ => 10)
        [{ ticker := "B", quantity := some 1 }]).map (fun r => r.weight)).sum
          = 1 := by
  have hpos : 0 < totalValue (fun _ => 10)
      [{ ticker := "B", quantity := some 1 }] := by
    norm_num [totalValue, keptRows, rawRows, normQuantity]
  exact ⟨hpos,
    (C5_weight_invariant (fun _ => 10)
      [{ ticker := "B", quantity := some 1 }]).2.1 hpos⟩

/-- Claim C8 (amended): an empty holdings list short-circuits to an empty
table before any computation, and an empty ticker list yields an empty
metrics table; a holding with a non-numeric quantity is coerced to
quantity 0, hence value 0, and is silently excluded by the value filter
rather than reported upward as a rejection — the rest of the request is
processed normally. -/
theorem C8_invalid_input (sq : ℚ → ℚ) (fetch : String → Option RawSeries)
    (priceOf : String → ℚ) (holdings : List Holding) (h : Holding) :
    create_portfolio_df priceOf [] = []
    ∧ calculate_risk_metrics sq fetch [] = []
    ∧ (h.quantity = none → normQuantity h * priceOf h.ticker = 0)
    ∧ (∀ r ∈ create_portfolio_df priceOf holdings, 0 < r.value) := by
  refine ⟨rfl, rfl, ?_, create_values_pos priceOf holdings⟩
  intro hq
  simp [normQuantity, hq]

theorem C8_witness :
    ({ ticker := "A", quantity := none } : Holding).quantity = none
    ∧ normQuantity { ticker := "A", quantity := none } *
        (fun _ => (10 : ℚ)) ({ ticker := "A", quantity := none } : Holding).ticker = 0 :=
  ⟨rfl, (C8_invalid_input id (fun _ => none) (fun _ => 10) []
    { ticker := "A", quantity := none }).2.2.1 rfl⟩

/-- Claim C8 counterexample: a request containing a holding with a
non-numeric quantity is not rejected: `create_portfolio_df` silently drops
it and produces computed results for the remaining holdings. -/
theorem C8_counterexample :
    create_portfolio_df (fun _ => 10)
      [{ ticker := "A", quantity := none }, { ticker := "B", quantity := some 1 }]
      = [{ ticker := "B", quantity := 1, price := 10, value := 10, weight := 1 }]
    ∧ create_portfolio_df (fun _ => 10)
      [{ ticker := "A", quantity := none }, { ticker := "B", quantity := some 1 }]
      ≠ [] := by
  have h1 : create_portfolio_df (fun _ => 10)
      [{ ticker := "A", quantity := none }, { ticker := "B", quantity := some 1 }]
      = [{ ticker := "B", quantity := 1, price := 10, value := 10, weight := 1 }] := by
    norm_num [create_portfolio_df, keptRows, rawRows, totalValue, normQuantity]
  refine ⟨h1, ?_⟩
  rw [h1]
  exact List.cons_ne_nil _ _

/-- Claim C6: the portfolio-level weighted Sharpe is the sum over positions
of weight times sharpe, the weighted expected return is the analogous sum,
the worst drawdown is the minimum of the per-asset max drawdowns, and the
0.6/0.4 - 1.0/2.0 scenario yields weighted Sharpe 1.4 = 7/5. -/
theorem C6_weighted_aggregates (rows : List SnapRow) :
    weighted_sharpe rows =
      ∑ i : Fin rows.length, (rows.get i).weight * (rows.get i).sharpe
    ∧ weighted_cagr rows =
      ∑ i : Fin rows.length, (rows.get i).weight * (rows.get i).cagr
    ∧ (rows ≠ [] →
        worst_drawdown rows ∈ rows.map (fun r => r.max_drawdown)
        ∧ ∀ r ∈ rows, worst_drawdown rows ≤ r.max_drawdown)
    ∧ weighted_sharpe [⟨"A", 3/5, 1, 0, 0⟩, ⟨"B", 2/5, 2, 0, 0⟩] = 7/5 := by
  refine ⟨sum_map_eq_finSum rows _, sum_map_eq_finSum rows _, ?_, ?_⟩
  · intro hne
    constructor
    · exact listMin_mem _ (fun hmap => hne (by simpa using hmap))
    · intro r hr
      exact listMin_le _ _ (List.mem_map_of_mem _ hr)
  · norm_num [weighted_sharpe]

theorem C6_witness :
    demoRows ≠ []
    ∧ ∀ r ∈ demoRows, worst_drawdown demoRows ≤ r.max_drawdown := by
  have hne : demoRows ≠ [] := List.cons_ne_nil _ _
  exact ⟨hne, ((C6_weighted_aggregates demoRows).2.2.1 hne).2⟩

/-- Claim C9 (spec-modelled advisor): the trim set is exactly the positions
with sharpe strictly below the unweighted average Sharpe and weight
strictly above the threshold, ordered ascending by sharpe, and the boost
set is exactly the positions with sharpe strictly above the average,
ordered descending by sharpe. -/
theorem C9_optimization_suggestions (rows : List SnapRow) (minWeight : ℚ) :
    (get_optimization_suggestions rows minWeight).1.Perm
      (rows.filter (fun r =>
        decide (r.sharpe < avgSharpe rows) && decide (minWeight < r.weight)))
    ∧ List.Sorted sharpeLE (get_optimization_suggestions rows minWeight).1
    ∧ (get_optimization_suggestions rows minWeight).2.Perm
      (rows.filter (fun r => decide (avgSharpe rows < r.sharpe)))
    ∧ List.Sorted sharpeGE (get_optimization_suggestions rows minWeight).2 :=
  ⟨List.perm_insertionSort sharpeLE _,
    List.sorted_insertionSort sharpeLE _,
    List.perm_insertionSort sharpeGE _,
    List.sorted_insertionSort sharpeGE _⟩

theorem ddAux_nonpos : ∀ (l : List ℚ) (m : ℚ), 0 < m → (∀ p ∈ l, 0 < p) →
    ∀ x ∈ List.zipWith (fun p mx => (p - mx) / mx) l (cummaxAux m l),
      x ≤ 0 := by
  intro l
  induction l with
  | nil => intro m _ _ x hx; simp [cummaxAux] at hx
  | cons p rest ih =>
    intro m hm hpos x hx
    simp only [cummaxAux, List.zipWith_cons_cons] at hx
    rcases List.mem_cons.mp hx with hx1 | hx2
    · rw [hx1]
      have hmp : 0 < max m p := lt_of_lt_of_le hm (le_max_left m p)
      have hple : p - max m p ≤ 0 := sub_nonpos.mpr (le_max_right m p)
      exact div_nonpos_iff.mpr (Or.inr ⟨hple, le_of_lt hmp⟩)
    · exact ih (max m p) (lt_of_lt_of_le hm (le_max_left m p))
        (fun q hq => hpos q (List.mem_cons_of_mem _ hq)) x hx2

theorem ddAux_zero_iff : ∀ (l : List ℚ) (m : ℚ), 0 < m → (∀ p ∈ l, 0 < p) →
    ((∀ x ∈ List.zipWith (fun p mx => (p - mx) / mx) l (cummaxAux m l),
        x = 0) ↔ List.Chain (· ≤ ·) m l) := by
  intro l
  induction l with
  | nil =>
    intro m _ _
    constructor
    · intro _; exact List.Chain.nil
    · intro _ x hx; simp [cummaxAux] at hx
  | cons p rest ih =>
    intro m hm hpos
    rw [List.chain_cons]
    simp only [cummaxAux, List.zipWith_cons_cons]
    have hp0 : 0 < p := hpos p (List.mem_cons_self _ _)
    have hrestpos : ∀ q ∈ rest, 0 < q :=
      fun q hq => hpos q (List.mem_cons_of_mem _ hq)
    constructor
    · intro hall
      have hhead := hall _ (List.mem_cons_self _ _)
      have hmp : 0 < max m p := lt_of_lt_of_le hm (le_max_left m p)
      have hpm : p - max m p = 0 := by
        rcases div_eq_zero_iff.mp hhead with h | h
        · exact h
        · exact absurd h (ne_of_gt hmp)
      have hpe : p = max m p := sub_eq_zero.mp hpm
      have hmlep : m ≤ p := le_of_le_of_eq (le_max_left m p) hpe.symm
      refine ⟨hmlep, ?_⟩
      have hmaxp : max m p = p := max_eq_right hmlep
      have htail := fun x hx => hall x (List.mem_cons_of_mem _ hx)
      rw [hmaxp] at htail
      exact (ih p hp0 hrestpos).mp htail
    · rintro ⟨hmp, hchain⟩
      have hmaxp : max m p = p := max_eq_right hmp
      rw [hmaxp]
      intro x hx
      rcases List.mem_cons.mp hx with hx1 | hx2
      · rw [hx1, sub_self, zero_div]
      · exact (ih p hp0 hrestpos).mpr hchain x hx2

theorem tickerMetrics_success (sq : ℚ → ℚ)
    (fetch : String → Option RawSeries) (t : String) (raw : RawSeries)
    (m : Metrics) (hf : fetch t = some raw)
    (hm : tickerMetrics sq fetch t = some m) :
    m.max_drawdown = max_drawdown ((dropnaRaw raw).map (fun e => e.2)) := by
  simp only [tickerMetrics, hf] at hm
  by_cases h5 : (dropnaRaw raw).length < 500
  · rw [if_pos h5] at hm
    cases hm
  · rw [if_neg h5] at hm
    by_cases h24 : (pctChange
        ((monthLast (dropnaRaw raw)).map (fun e => e.2))).length < 24
    · rw [if_pos h24] at hm
      cases hm
    · rw [if_neg h24] at hm
      cases hm
      rfl

/-- Claim C4: the max drawdown of `calculate_risk_metrics` equals the
minimum over dates of `(price - running_max) / running_max`, is computed
over the full daily (non-resampled) cleaned series, is always at most 0,
and is 0 exactly when the price series is non-decreasing. -/
theorem C4_max_drawdown (hist : List ℚ) (hne : hist ≠ [])
    (hpos : ∀ p ∈ hist, 0 < p) :
    max_drawdown hist ≤ 0
    ∧ (max_drawdown hist = 0 ↔ List.Chain' (· ≤ ·) hist)
    ∧ max_drawdown hist ∈ drawdowns hist
    ∧ (∀ x ∈ drawdowns hist, max_drawdown hist ≤ x)
    ∧ (∀ (sq : ℚ → ℚ) (fetch : String → Option RawSeries) (t : String)
        (raw : RawSeries) (m : Metrics), fetch t = some raw →
        tickerMetrics sq fetch t = some m →
        m.max_drawdown = max_drawdown ((dropnaRaw raw).map (fun e => e.2))) :=
  by
  cases hist with
  | nil => exact absurd rfl hne
  | cons p rest =>
    have hp0 : 0 < p := hpos p (List.mem_cons_self _ _)
    have hrestpos : ∀ q ∈ rest, 0 < q :=
      fun q hq => hpos q (List.mem_cons_of_mem _ hq)
    have hshape : drawdowns (p :: rest) =
        ((p - p) / p) ::
          List.zipWith (fun q mx => (q - mx) / mx) rest (cummaxAux p rest) :=
      rfl
    have hall_nonpos : ∀ x ∈ drawdowns (p :: rest), x ≤ 0 := by
      rw [hshape]
      intro x hx
      rcases List.mem_cons.mp hx with hx1 | hx2
      · rw [hx1, sub_self, zero_div]
      · exact ddAux_nonpos rest p hp0 hrestpos x hx2
    have hdd_ne : drawdowns (p :: rest) ≠ [] := by
      rw [hshape]
      exact List.cons_ne_nil _ _
    have hmem : max_drawdown (p :: rest) ∈ drawdowns (p :: rest) :=
      listMin_mem _ hdd_ne
    have hlb : ∀ x ∈ drawdowns (p :: rest), max_drawdown (p :: rest) ≤ x :=
      listMin_le _
    refine ⟨hall_nonpos _ hmem, ?_, hmem, hlb, ?_⟩
    · constructor
      · intro hz
        have hall_zero : ∀ x ∈ drawdowns (p :: rest), x = 0 := by
          intro x hx
          exact le_antisymm (hall_nonpos x hx) (hz ▸ hlb x hx)
        show List.Chain (· ≤ ·) p rest
        apply (ddAux_zero_iff rest p hp0 hrestpos).mp
        intro x hx
        apply hall_zero
        rw [hshape]
        exact List.mem_cons_of_mem _ hx
      · intro hchain
        have hall_zero : ∀ x ∈ drawdowns (p :: rest), x = 0 := by
          rw [hshape]
          intro x hx
          rcases List.mem_cons.mp hx with hx1 | hx2
          · rw [hx1, sub_self, zero_div]
          · exact (ddAux_zero_iff rest p hp0 hrestpos).mpr hchain x hx2
        exact hall_zero _ hmem
    · intro sq fetch t raw m hf hm
      exact tickerMetrics_success sq fetch t raw m hf hm

theorem C4_witness :
    ([(2 : ℚ), 1] ≠ [])
    ∧ (∀ q ∈ [(2 : ℚ), 1], 0 < q)
    ∧ max_drawdown [(2 : ℚ), 1] ≤ 0
    ∧ ¬ max_drawdown [(2 : ℚ), 1] = 0
    ∧ (tickerMetrics sq0 (fun _ => some raw600) "X").map
        (fun m => m.max_drawdown) =
      some (max_drawdown ((dropnaRaw raw600).map (fun e => e.2))) := by
  have h := C4_max_drawdown [(2 : ℚ), 1] (by decide) (by decide)
  refine ⟨by decide, by decide, h.1, ?_, ?_⟩
  · intro hz
    have hchain := (h.2.1).mp hz
    exact absurd (List.chain'_cons.mp hchain).1 (by decide)
  · cases hopt : tickerMetrics sq0 (fun _ => some raw600) "X" with
    | none =>
      exfalso
      revert hopt
      simp only [tickerMetrics]
      rw [if_neg (by decide), if_neg (by decide)]
      intro hopt
      cases hopt
    | some m =>
      rw [Option.map_some']
      exact congrArg some
        (h.2.2.2.2 sq0 (fun _ => some raw600) "X" raw600 m rfl hopt)

theorem historyStep_spec (positions : List (String × ℚ)) (tbl : PriceTable)
    (acc : List (Nat × ℚ)) (t : String) :
    historyStep positions tbl acc t =
      acc.map (fun e => (e.1, e.2 + priceAt tbl t e.1 * qtyOf positions t)) :=
  by
  unfold historyStep priceAt
  cases hf : (ffilledTable tbl).find? (fun c => c.1 == t) with
  | none => simp
  | some c => rfl

theorem history_foldl (positions : List (String × ℚ)) (tbl : PriceTable) :
    ∀ (ts : List String) (acc : List (Nat × ℚ)),
      ts.foldl (historyStep positions tbl) acc =
        acc.map (fun e => (e.1, e.2 +
          (ts.map (fun t => priceAt tbl t e.1 * qtyOf positions t)).sum)) := by
  intro ts
  induction ts with
  | nil =>
    intro acc
    simp
  | cons t ts ih =>
    intro acc
    rw [List.foldl_cons, historyStep_spec, ih, List.map_map]
    apply List.map_congr_left
    intro e _
    simp [Function.comp, add_assoc]

theorem find_key_eq (l : List (String × ℚ))
    (hnd : (l.map (fun p => p.1)).Nodup) :
    ∀ p ∈ l, l.find? (fun x => x.1 == p.1) = some p := by
  induction l with
  | nil => intro p hp; cases hp
  | cons a rest ih =>
    have hnd' : (a.1 :: rest.map (fun p => p.1)).Nodup := by simpa using hnd
    intro p hp
    rcases List.mem_cons.mp hp with hpa | hpm
    · rw [hpa]
      exact List.find?_cons_of_pos _ (by simp)
    · have hne : a.1 ≠ p.1 := by
        intro he
        apply (List.nodup_cons.mp hnd').1
        rw [he]
        exact List.mem_map_of_mem _ hpm
      rw [List.find?_cons_of_neg _ (by simp [hne])]
      exact ih (List.nodup_cons.mp hnd').2 p hpm

theorem qtyOf_eq (positions : List (String × ℚ))
    (hnd : (positions.map (fun p => p.1)).Nodup) :
    ∀ p ∈ positions, qtyOf positions p.1 = p.2 := by
  intro p hp
  have hr : (positions.reverse.map (fun p => p.1)).Nodup := by
    rw [List.map_reverse]
    exact List.nodup_reverse.mpr hnd
  unfold qtyOf
  rw [find_key_eq positions.reverse hr p (List.mem_reverse.mpr hp)]
  rfl

/-- Claim C7: `get_portfolio_history` returns an ordered (date, total)
sequence over exactly the dates at which every column still has a price
after forward fill; each surviving date's total is the sum over all
positions of the forward-filled price times the quantity, and every held
ticker has a present forward-filled price at every surviving date. -/
theorem C7_portfolio_history (positions : List (String × ℚ))
    (tbl : PriceTable) (n : Nat)
    (hkeys : tbl.map (fun c => c.1) = positions.map (fun p => p.1))
    (hnd : (positions.map (fun p => p.1)).Nodup) :
    ((get_portfolio_history positions tbl n).map (fun e => e.1)
        = completeDates tbl n)
    ∧ List.Pairwise (· < ·)
        ((get_portfolio_history positions tbl n).map (fun e => e.1))
    ∧ (∀ e ∈ get_portfolio_history positions tbl n,
        e.2 = (positions.map (fun p => priceAt tbl p.1 e.1 * p.2)).sum)
    ∧ (∀ i ∈ completeDates tbl n, ∀ t ∈ positions.map (fun p => p.1),
        ∃ c ∈ ffilledTable tbl, c.1 = t
          ∧ ((c.2.getD i none).isSome : Prop)) := by
  have hfold : get_portfolio_history positions tbl n =
      (completeDates tbl n).map (fun i => (i, (0 : ℚ) +
        ((positions.map (fun p => p.1)).map
          (fun t => priceAt tbl t i * qtyOf positions t)).sum)) := by
    unfold get_portfolio_history
    rw [history_foldl, List.map_map]
    rfl
  have hfst : (get_portfolio_history positions tbl n).map (fun e => e.1)
      = completeDates tbl n := by
    rw [hfold, List.map_map]
    exact List.map_id _
  refine ⟨hfst, ?_, ?_, ?_⟩
  · rw [hfst]
    exact (List.pairwise_lt_range n).filter _
  · intro e he
    rw [hfold] at he
    rcases List.mem_map.mp he with ⟨i, _, hie⟩
    rw [← hie]
    show (0 : ℚ) + _ = _
    rw [zero_add, List.map_map]
    apply congrArg List.sum
    apply List.map_congr_left
    intro p hp
    show priceAt tbl p.1 i * qtyOf positions p.1 = priceAt tbl p.1 i * p.2
    rw [qtyOf_eq positions hnd p hp]
  · intro i hi t ht
    rw [← hkeys] at ht
    rcases List.mem_map.mp ht with ⟨col, hcol, hfstc⟩
    refine ⟨(col.1, ffill none col.2), ?_, hfstc, ?_⟩
    · have : (fun c : String × List (Option ℚ) => (c.1, ffill none c.2)) col
          = (col.1, ffill none col.2) := rfl
      rw [← this]
      exact List.mem_map_of_mem _ hcol
    · have hall := (List.mem_filter.mp hi).2
      have := List.all_eq_true.mp hall (col.1, ffill none col.2)
        (List.mem_map_of_mem
          (fun c : String × List (Option ℚ) => (c.1, ffill none c.2)) hcol)
      simpa using this

theorem C7_witness :
    (([("A", [none, some 10, some 12]),
        ("B", [some 5, some 6, none])] : PriceTable).map (fun c => c.1)
      = ([("A", (2 : ℚ)), ("B", 1)].map (fun p => p.1)))
    ∧ ([("A", (2 : ℚ)), ("B", 1)].map (fun p => p.1)).Nodup
    ∧ (get_portfolio_history [("A", (2 : ℚ)), ("B", 1)]
        [("A", [none, some 10, some 12]), ("B", [some 5, some 6, none])]
        3).map (fun e => e.1)
      = completeDates
        [("A", [none, some 10, some 12]), ("B", [some 5, some 6, none])] 3 :=
  ⟨by decide, by decide,
    (C7_portfolio_history [("A", (2 : ℚ)), ("B", 1)]
      [("A", [none, some 10, some 12]), ("B", [some 5, some 6, none])] 3
      (by decide) (by decide)).1⟩

end PortfolioAnalyzer
